import Mathlib

/-!
# Verification of a Hilbert-style propositional proof engine

This file is a shallow embedding of a small Python propositional-logic
kernel consisting of two modules:

* `propositions.py` — the formula data model (`PrimitiveProposition`,
  `Proposition`) and the `Proof` class with its step constructors
  (`axiom_1`, `axiom_2`, `axiom_3`, `modus_ponens`);
* `deduction.py` — `use_deduction_theorem`, the Deduction Theorem
  transformer.

Python strings are modelled as `List Char`; a formula's canonical textual
form (`self.name` in the source) is a `List Char` computed exactly as the
source computes it.  The source decides formula equality by comparing
`hash(self.name)` with `hash(other.name)`; the hash function is modelled
abstractly (`pyEq` below takes the hash as a parameter).  Under the
assumption that the hash is injective — the reading the specification's
"structural equality" sections take — this comparison coincides with
comparison of the canonical names, and the `Proof`-level development uses
that name comparison (`feq`) as the model of `==`.  Failures (Python
`raise ValueError`) are modelled by `Except` with an error type whose
renderings are the exact source message strings; in the source every
`raise` happens before any mutation of the object, so an `Except.error`
result models "exception raised, state unchanged".
-/

/-- Formulas: `PrimitiveProposition(name)` atoms and `Proposition(left, right)`
implications (`propositions.py` lines 1–45). -/
inductive Formula where
  | atom (s : String)
  | imp (left right : Formula)
deriving DecidableEq, Repr

/-- The canonical textual form of a formula: an atom's name is the string it
was constructed with; an implication's name is `f"({left} => {right})"`
(`propositions.py` line 45). -/
def Formula.name : Formula → List Char
  | .atom s => s.data
  | .imp l r => "(".data ++ Formula.name l ++ " => ".data ++ Formula.name r ++ ")".data

/-- Python `==` on formulas compares `hash(self.name) == hash(other.name)`
(`propositions.py` lines 18–23); `h` is the process's string hash. -/
def pyEq (h : List Char → Nat) (a b : Formula) : Bool :=
  h a.name == h b.name

/-- An arbitrary Python object, seen through the only feature `__eq__` uses:
its hash value. -/
structure PyObj where
  hashVal : Nat

/-- The source's `__eq__` applied to an arbitrary object: it calls
`other.__hash__()` and compares hash values. -/
def pyEqObj (h : List Char → Nat) (a : Formula) (o : PyObj) : Bool :=
  h a.name == o.hashVal

/-- Formula equality as the `Proof`-level development uses it: comparison of
canonical names, i.e. the source's hash comparison under an injective hash. -/
def feq (a b : Formula) : Bool :=
  a.name == b.name

/-- The literal `false` proposition `⊥` (`propositions.py` line 49). -/
def falseProp : Formula := Formula.atom "⊥"

/-- Negation is the derived form `~p := (p => ⊥)` (`propositions.py` line 31). -/
def Formula.neg (a : Formula) : Formula := a.imp falseProp

/-- Justification string `"(premise)"` recorded for initial premise lines. -/
def premiseApp : List Char := "(premise)".data

/-- Justification string `"(A1)"`. -/
def a1App : List Char := "(A1)".data

/-- Justification string `"(A2)"`. -/
def a2App : List Char := "(A2)".data

/-- Justification string `"(A3)"`. -/
def a3App : List Char := "(A3)".data

/-- Justification string `f"(MP {i + 1}, {j + 1})"` recorded by
`modus_ponens`, where `i` and `j` are the 0-based `list.index` results. -/
def mpApp (i j : Nat) : List Char :=
  "(MP ".data ++ (Nat.repr (i + 1)).data ++ ", ".data ++ (Nat.repr (j + 1)).data ++ ")".data

/-- The test `application.startswith("(A")` that `use_deduction_theorem` uses to
recognise axiom-justified lines (`deduction.py` line 54). -/
def isAxiomApp (app : List Char) : Bool :=
  List.isPrefixOf "(A".data app

/-- The errors the engine can raise, each a `ValueError` in the source;
`PLError.render` gives the exact message. -/
inductive PLError where
  | unprovenAntecedent (f : Formula)
  | unprovenImplication (f : Formula)
  | notAPremise (f : Formula)
  | noAntecedent (f : Formula)
deriving DecidableEq, Repr

/-- The exact `ValueError` message text of each error. -/
def PLError.render : PLError → List Char
  | .unprovenAntecedent f =>
      "Antecedent ".data ++ f.name ++ " has not been proven: unable to apply modus ponens".data
  | .unprovenImplication f =>
      "Implication ".data ++ f.name ++ " has not been proven: unable to apply modus ponens".data
  | .notAPremise f => "`".data ++ f.name ++ "` is not a premise of the proof".data
  | .noAntecedent f => "Unable to find the antecedent of ".data ++ f.name

/-- A proof: a premise set, a line list and an application (justification)
list (`propositions.py` lines 58–68).  The Python premise set is modelled as
the list of its elements in iteration order. -/
structure Proof where
  premises : List Formula
  lines : List Formula
  applications : List (List Char)
deriving DecidableEq, Repr

/-- Python `x in l` over a formula list: some element compares `==` to `x`. -/
def memF (l : List Formula) (f : Formula) : Bool :=
  l.any (fun x => feq x f)

/-- Python `l.index(x)` over a formula list: the 0-based index of the first
element comparing `==` to `x`. -/
def idxF (l : List Formula) (f : Formula) : Nat :=
  l.findIdx (fun x => feq x f)

/-- Python `Proof.__init__`: lines start as `list(premises)` and every initial line
is justified `"(premise)"` (`propositions.py` lines 65–68). -/
def Proof.init (premises : List Formula) : Proof :=
  { premises := premises
    lines := premises
    applications := premises.map (fun _ => premiseApp) }

/-- Method `axiom_1`: appends `p > (q > p)` justified `"(A1)"`; never fails. -/
def Proof.axiom_1 (pf : Proof) (p q : Formula) : Proof :=
  { pf with
    lines := pf.lines ++ [p.imp (q.imp p)]
    applications := pf.applications ++ [a1App] }

/-- Method `axiom_2`: appends `(p > (q > r)) > ((p > q) > (p > r))` justified
`"(A2)"`; never fails. -/
def Proof.axiom_2 (pf : Proof) (p q r : Formula) : Proof :=
  { pf with
    lines := pf.lines ++ [(p.imp (q.imp r)).imp ((p.imp q).imp (p.imp r))]
    applications := pf.applications ++ [a2App] }

/-- Method `axiom_3`: appends `~~p > p` justified `"(A3)"`; never fails. -/
def Proof.axiom_3 (pf : Proof) (p : Formula) : Proof :=
  { pf with
    lines := pf.lines ++ [(p.neg.neg).imp p]
    applications := pf.applications ++ [a3App] }

/-- Method `modus_ponens` (`propositions.py` lines 86–103): raises if the
antecedent `p` is not among the lines, then if the implication `p > q` is not
among the lines; otherwise appends the conclusion `q` and the justification
string citing the 1-based `list.index` positions of `p` and `p > q` (computed,
as in the source, after the append of `q`). -/
def Proof.modus_ponens (pf : Proof) (p q : Formula) : Except PLError Proof :=
  if memF pf.lines p = false then
    .error (.unprovenAntecedent p)
  else if memF pf.lines (p.imp q) = false then
    .error (.unprovenImplication (p.imp q))
  else
    let lines' := pf.lines ++ [q]
    .ok { pf with
          lines := lines'
          applications := pf.applications ++ [mpApp (idxF lines' p) (idxF lines' (p.imp q))] }

/-- Method `conclude`: the last line of the proof. -/
def Proof.conclude (pf : Proof) : Option Formula :=
  pf.lines.getLast?

/-- The state of the Python `Proof` object after a step-constructor call whose
model is `r : Except PLError Proof`: in the source every `raise` occurs before
any append, so an exception leaves the object exactly as it was. -/
def runStep (pf : Proof) (r : Except PLError Proof) : Proof :=
  match r with
  | .ok pf' => pf'
  | .error _ => pf

/-- Python `itertools.product(l₁, l₂)`: all pairs in lexicographic order. -/
def prodList (l₁ l₂ : List Formula) : List (Formula × Formula) :=
  l₁.flatMap (fun a => l₂.map (fun b => (a, b)))

/-- The case-4 scan of `use_deduction_theorem` (`deduction.py` lines 66–68):
the first pair `(tj, tk)` of `product(proof.lines, repeat=2)` with
`tk == (tj > line)`, if any. -/
def findPair (lines : List Formula) (t : Formula) : Option (Formula × Formula) :=
  (prodList lines lines).find? (fun x => feq x.2 (x.1.imp t))

/-- The body of `use_deduction_theorem`'s loop for one `(line, application)`
pair of the input proof (`deduction.py` lines 38–75), acting on the proof
under construction `np`. -/
def dedStep (proof : Proof) (premise : Formula) (np : Proof)
    (la : Formula × List Char) : Except PLError Proof :=
  let p := premise
  let line := la.1
  let application := la.2
  if feq line premise then do
    let np := np.axiom_1 p (p.imp p)
    let np := np.axiom_2 p (p.imp p) p
    let np ← np.modus_ponens (p.imp ((p.imp p).imp p)) ((p.imp (p.imp p)).imp (p.imp p))
    let np := np.axiom_1 p p
    np.modus_ponens (p.imp (p.imp p)) (p.imp p)
  else if memF proof.premises line then do
    let np := np.axiom_1 line p
    np.modus_ponens line (p.imp line)
  else if isAxiomApp application then do
    let np : Proof := { np with
                        lines := np.lines ++ [line]
                        applications := np.applications ++ [application] }
    let np := np.axiom_1 line p
    np.modus_ponens line (p.imp line)
  else
    match findPair proof.lines line with
    | none => .error (.noAntecedent line)
    | some (tj, tk) => do
        let np := np.axiom_2 p tj line
        let np ← np.modus_ponens (p.imp tk) ((p.imp tj).imp (p.imp line))
        np.modus_ponens (p.imp tj) (p.imp line)

/-- The transformer `use_deduction_theorem` (`deduction.py` lines 5–77): check the premise is
a premise of the proof, start a fresh proof over `proof.premises - {premise}`,
and process each `(line, application)` pair of the input in order. -/
def use_deduction_theorem (proof : Proof) (premise : Formula) : Except PLError Proof :=
  if memF proof.premises premise = false then
    .error (.notAPremise premise)
  else
    (proof.lines.zip proof.applications).foldlM (dedStep proof premise)
      (Proof.init (proof.premises.filter (fun x => !feq x premise)))

/-- Variant of `use_deduction_theorem` with the input proof's state threaded explicitly:
every read of the input proof goes through the first store component, every
method call of the loop body acts on the second, and each iteration returns
the input-proof component it was given (the source loop body never assigns to
`proof`).  Used to state that the transformer leaves its input unchanged. -/
def use_deduction_theorem_st (proof : Proof) (premise : Formula) :
    Except PLError (Proof × Proof) :=
  if memF proof.premises premise = false then
    .error (.notAPremise premise)
  else
    (proof.lines.zip proof.applications).foldlM
      (fun st la => (dedStep st.1 premise st.2 la).map (fun np => (st.1, np)))
      (proof, Proof.init (proof.premises.filter (fun x => !feq x premise)))

/-- Proofs reachable through the public `Proof` API: construction from a
premise list followed by any sequence of successful step-constructor calls. -/
inductive Built : Proof → Prop where
  | init (premises : List Formula) : Built (Proof.init premises)
  | ax1 {pf : Proof} (a b : Formula) : Built pf → Built (pf.axiom_1 a b)
  | ax2 {pf : Proof} (a b c : Formula) : Built pf → Built (pf.axiom_2 a b c)
  | ax3 {pf : Proof} (a : Formula) : Built pf → Built (pf.axiom_3 a)
  | mp {pf pf' : Proof} (a b : Formula) :
      Built pf → pf.modus_ponens a b = .ok pf' → Built pf'

/-! ## Basic lemmas about formula comparison and line lookup -/

theorem feq_refl (a : Formula) : feq a a = true := by
  simp [feq]

theorem feq_eq_true_iff {a b : Formula} : feq a b = true ↔ a.name = b.name := by
  simp [feq]

theorem memF_of_mem {l : List Formula} {f : Formula} (h : f ∈ l) : memF l f = true := by
  simp only [memF, List.any_eq_true]
  exact ⟨f, h, feq_refl f⟩

theorem memF_append (l₁ l₂ : List Formula) (f : Formula) :
    memF (l₁ ++ l₂) f = (memF l₁ f || memF l₂ f) := by
  simp [memF]

theorem memF_exists {l : List Formula} {f : Formula} (h : memF l f = true) :
    ∃ x ∈ l, feq x f = true := by
  simpa [memF, List.any_eq_true] using h

theorem idxF_lt_length {l : List Formula} {f : Formula} (h : memF l f = true) :
    idxF l f < l.length :=
  List.findIdx_lt_length_of_exists (memF_exists h)

theorem idxF_append_of_memF {l₁ : List Formula} (l₂ : List Formula) {f : Formula}
    (h : memF l₁ f = true) : idxF (l₁ ++ l₂) f = idxF l₁ f := by
  have hlt : List.findIdx (fun x => feq x f) l₁ < l₁.length := idxF_lt_length h
  unfold idxF
  rw [List.findIdx_append, if_pos hlt]

/-- Characterisation of a successful `modus_ponens` call: the indices cited in
the recorded justification are the first occurrences in the pre-call line
list (appending the conclusion cannot change them, since both formulas are
required to occur already). -/
theorem modus_ponens_eq_ok {pf : Proof} {a b : Formula}
    (ha : memF pf.lines a = true) (hi : memF pf.lines (a.imp b) = true) :
    pf.modus_ponens a b =
      .ok { pf with
            lines := pf.lines ++ [b]
            applications :=
              pf.applications ++ [mpApp (idxF pf.lines a) (idxF pf.lines (a.imp b))] } := by
  unfold Proof.modus_ponens
  simp [ha, hi, idxF_append_of_memF _ ha, idxF_append_of_memF _ hi]

theorem modus_ponens_error_of_no_antecedent {pf : Proof} {a b : Formula}
    (ha : memF pf.lines a = false) :
    pf.modus_ponens a b = .error (.unprovenAntecedent a) := by
  unfold Proof.modus_ponens
  simp [ha]

theorem modus_ponens_error_of_no_implication {pf : Proof} {a b : Formula}
    (ha : memF pf.lines a = true) (hi : memF pf.lines (a.imp b) = false) :
    pf.modus_ponens a b = .error (.unprovenImplication (a.imp b)) := by
  unfold Proof.modus_ponens
  simp [ha, hi]

theorem modus_ponens_error_form {pf : Proof} {a b : Formula} {e : PLError}
    (h : pf.modus_ponens a b = .error e) :
    e = .unprovenAntecedent a ∨ e = .unprovenImplication (a.imp b) := by
  by_cases ha : memF pf.lines a = true
  · by_cases hi : memF pf.lines (a.imp b) = true
    · rw [modus_ponens_eq_ok ha hi] at h
      exact absurd h (by simp)
    · rw [modus_ponens_error_of_no_implication ha (Bool.eq_false_iff.mpr hi)] at h
      exact Or.inr (Except.error.inj h).symm
  · rw [modus_ponens_error_of_no_antecedent (Bool.eq_false_iff.mpr ha)] at h
    exact Or.inl (Except.error.inj h).symm

/-! ## C5 — axiom schema constructors -/

/-- C5: for any input formulas, `axiom_1`, `axiom_2` and `axiom_3` never fail
(they are total functions on proofs); each appends exactly one line holding
exactly the corresponding schema instance — `(a ⇒ (b ⇒ a))`,
`((a ⇒ (b ⇒ c)) ⇒ ((a ⇒ b) ⇒ (a ⇒ c)))` and `(¬¬a ⇒ a)` with `¬x := (x ⇒ ⊥)`
— together with the matching axiom-schema justification string, leaving the
premise set untouched. -/
theorem C5_axiom_totality (pf : Proof) (a b c : Formula) :
    (pf.axiom_1 a b).lines = pf.lines ++ [a.imp (b.imp a)]
    ∧ (pf.axiom_1 a b).applications = pf.applications ++ [a1App]
    ∧ (pf.axiom_2 a b c).lines = pf.lines ++ [(a.imp (b.imp c)).imp ((a.imp b).imp (a.imp c))]
    ∧ (pf.axiom_2 a b c).applications = pf.applications ++ [a2App]
    ∧ (pf.axiom_3 a).lines = pf.lines ++ [((a.imp falseProp).imp falseProp).imp a]
    ∧ (pf.axiom_3 a).applications = pf.applications ++ [a3App]
    ∧ (pf.axiom_1 a b).premises = pf.premises
    ∧ (pf.axiom_2 a b c).premises = pf.premises
    ∧ (pf.axiom_3 a).premises = pf.premises := by
  refine ⟨rfl, rfl, rfl, rfl, ?_, rfl, rfl, rfl, rfl⟩
  simp [Proof.axiom_3, Formula.neg]

/-! ## C3 — modus ponens success behaviour -/

/-- C3: `modus_ponens` succeeds iff both the antecedent `a` and the
implication `(a ⇒ b)` already occur among the proof's lines; on success the
appended last line is exactly `b`, and the recorded justification is the
string `"(MP i, j)"` citing the 1-based indices of the *first* occurrences of
`a` and `(a ⇒ b)` in the line sequence (`idxF` is 0-based, `mpApp` adds one,
and the final conjuncts pin down that `idxF` really is the first
occurrence). -/
theorem C3_modus_ponens_sound (pf : Proof) (a b : Formula) :
    ((∃ pf', pf.modus_ponens a b = .ok pf') ↔
        (memF pf.lines a = true ∧ memF pf.lines (a.imp b) = true))
    ∧ (∀ pf', pf.modus_ponens a b = .ok pf' →
        pf'.premises = pf.premises
        ∧ pf'.lines = pf.lines ++ [b]
        ∧ pf'.applications =
            pf.applications ++ [mpApp (idxF pf.lines a) (idxF pf.lines (a.imp b))]
        ∧ (∃ hlt : idxF pf.lines a < pf.lines.length,
            feq (pf.lines.get ⟨idxF pf.lines a, hlt⟩) a = true)
        ∧ (∀ k (hk : k < pf.lines.length), k < idxF pf.lines a →
            feq (pf.lines.get ⟨k, hk⟩) a = false)
        ∧ (∃ hlt : idxF pf.lines (a.imp b) < pf.lines.length,
            feq (pf.lines.get ⟨idxF pf.lines (a.imp b), hlt⟩) (a.imp b) = true)
        ∧ (∀ k (hk : k < pf.lines.length), k < idxF pf.lines (a.imp b) →
            feq (pf.lines.get ⟨k, hk⟩) (a.imp b) = false)) := by
  constructor
  · constructor
    · rintro ⟨pf', h⟩
      by_cases ha : memF pf.lines a = true
      · by_cases hi : memF pf.lines (a.imp b) = true
        · exact ⟨ha, hi⟩
        · rw [modus_ponens_error_of_no_implication ha (Bool.eq_false_iff.mpr hi)] at h
          cases h
      · rw [modus_ponens_error_of_no_antecedent (Bool.eq_false_iff.mpr ha)] at h
        cases h
    · rintro ⟨ha, hi⟩
      exact ⟨_, modus_ponens_eq_ok ha hi⟩
  · intro pf' h
    by_cases ha : memF pf.lines a = true
    · by_cases hi : memF pf.lines (a.imp b) = true
      · rw [modus_ponens_eq_ok ha hi] at h
        cases Except.ok.inj h
        refine ⟨rfl, rfl, rfl, ⟨idxF_lt_length ha, ?_⟩, ?_, ⟨idxF_lt_length hi, ?_⟩, ?_⟩
        · exact @List.findIdx_getElem _ (fun x => feq x a) pf.lines (idxF_lt_length ha)
        · intro k hk hklt
          exact List.not_of_lt_findIdx hklt
        · exact @List.findIdx_getElem _ (fun x => feq x (a.imp b)) pf.lines (idxF_lt_length hi)
        · intro k hk hklt
          exact List.not_of_lt_findIdx hklt
      · rw [modus_ponens_error_of_no_implication ha (Bool.eq_false_iff.mpr hi)] at h
        cases h
    · rw [modus_ponens_error_of_no_antecedent (Bool.eq_false_iff.mpr ha)] at h
      cases h

/-! ## C4 — modus ponens failure behaviour -/

/-- C4: when the antecedent `a` is absent from the lines, `modus_ponens`
fails with the UnprovenAntecedent error naming `a`; when `a` is present but
the implication `(a ⇒ b)` is absent, it fails with the UnprovenImplication
error naming the implication; in every failure case the proof state is left
completely unchanged (`runStep` is the post-call object state: in the source
both raises occur before any append).  The final two conjuncts pin down the
error messages, which name the missing formula. -/
theorem C4_modus_ponens_failure (pf : Proof) (a b : Formula) :
    (memF pf.lines a = false →
        pf.modus_ponens a b = .error (.unprovenAntecedent a))
    ∧ (memF pf.lines a = true → memF pf.lines (a.imp b) = false →
        pf.modus_ponens a b = .error (.unprovenImplication (a.imp b)))
    ∧ (∀ e, pf.modus_ponens a b = .error e → runStep pf (pf.modus_ponens a b) = pf)
    ∧ (PLError.unprovenAntecedent a).render =
        "Antecedent ".data ++ a.name ++
          " has not been proven: unable to apply modus ponens".data
    ∧ (PLError.unprovenImplication (a.imp b)).render =
        "Implication ".data ++ (a.imp b).name ++
          " has not been proven: unable to apply modus ponens".data := by
  refine ⟨fun ha => modus_ponens_error_of_no_antecedent ha,
          fun ha hi => modus_ponens_error_of_no_implication ha hi,
          fun e he => ?_, rfl, rfl⟩
  rw [he]
  rfl

/-- Witness for C4 at the spec's concrete scenario: a fresh proof with
premises `{p}` and a direct call `modus_ponens(p, q)` fails with
UnprovenImplication naming `(p ⇒ q)` and leaves the proof unchanged. -/
theorem C4_modus_ponens_failure_witness :
    (Proof.init [Formula.atom "p"]).modus_ponens (Formula.atom "p") (Formula.atom "q") =
      .error (.unprovenImplication ((Formula.atom "p").imp (Formula.atom "q")))
    ∧ runStep (Proof.init [Formula.atom "p"])
        ((Proof.init [Formula.atom "p"]).modus_ponens (Formula.atom "p") (Formula.atom "q")) =
      Proof.init [Formula.atom "p"] := by
  have h := C4_modus_ponens_failure (Proof.init [Formula.atom "p"])
    (Formula.atom "p") (Formula.atom "q")
  have he := h.2.1 (by decide) (by decide)
  exact ⟨he, h.2.2.1 _ he⟩

/-! ## C6 — deduction on a missing premise -/

/-- C6: calling the transformer with a formula that is not an element of
`proof.premises` fails immediately with the MissingPremise precondition
error (before any new proof is produced: the source check is the first
statement of the function); in particular on a proof with an empty premise
set it fails for every premise argument.  The last conjunct pins down the
message, which names the offending formula. -/
theorem C6_missing_premise (pf : Proof) (prem : Formula) :
    (memF pf.premises prem = false →
        use_deduction_theorem pf prem = .error (.notAPremise prem))
    ∧ (pf.premises = [] →
        use_deduction_theorem pf prem = .error (.notAPremise prem))
    ∧ (PLError.notAPremise prem).render =
        "`".data ++ prem.name ++ "` is not a premise of the proof".data := by
  refine ⟨fun h => ?_, fun h => ?_, rfl⟩
  · unfold use_deduction_theorem
    rw [if_pos h]
  · unfold use_deduction_theorem
    rw [if_pos (by rw [h]; rfl)]

/-- Witness for C6 at the spec's concrete scenario: an empty-premise proof
built with `axiom1(p, q)` then `axiom1(q, p)`; the transformer called on `p`
(not an element of the empty premise set) fails with MissingPremise. -/
theorem C6_missing_premise_witness :
    use_deduction_theorem
      (((Proof.init []).axiom_1 (Formula.atom "p") (Formula.atom "q")).axiom_1
        (Formula.atom "q") (Formula.atom "p"))
      (Formula.atom "p") = .error (.notAPremise (Formula.atom "p")) :=
  (C6_missing_premise
    (((Proof.init []).axiom_1 (Formula.atom "p") (Formula.atom "q")).axiom_1
      (Formula.atom "q") (Formula.atom "p"))
    (Formula.atom "p")).2.1 rfl

/-! ## C10 — equality is hash comparison -/

/-- An explicit injective code on character lists, standing in for a
collision-free string hash in concrete instantiations. -/
def encodeChars : List Char → Nat
  | [] => 0
  | c :: cs => Nat.pair c.toNat (encodeChars cs) + 1

theorem encodeChars_injective : Function.Injective encodeChars := by
  intro l₁
  induction l₁ with
  | nil =>
    intro l₂ h
    cases l₂ with
    | nil => rfl
    | cons d ds => simp [encodeChars] at h
  | cons c cs ih =>
    intro l₂ h
    cases l₂ with
    | nil => simp [encodeChars] at h
    | cons d ds =>
      simp only [encodeChars, Nat.add_right_cancel_iff, Nat.pair_eq_pair] at h
      have hc : c = d := Char.ext (UInt32.ext h.1)
      rw [hc, ih h.2]

/-- C10: formula equality is decided solely by comparing hash values of the
canonical name strings — it holds exactly when the hashes agree; equal
canonical forms imply equality for every hash; the converse is not required
(a collision makes formulas with distinct canonical forms compare equal);
and a formula compares equal to an arbitrary object exactly when the
object's hash matches. -/
theorem C10_hash_equality :
    (∀ (h : List Char → Nat) (a b : Formula), pyEq h a b = true ↔ h a.name = h b.name)
    ∧ (∀ (h : List Char → Nat) (a b : Formula), a.name = b.name → pyEq h a b = true)
    ∧ (∃ (h : List Char → Nat) (a b : Formula),
        pyEq h a b = true ∧ a.name ≠ b.name)
    ∧ (∀ (h : List Char → Nat) (a : Formula) (o : PyObj),
        pyEqObj h a o = true ↔ h a.name = o.hashVal) := by
  refine ⟨fun h a b => by simp [pyEq], fun h a b hab => by simp [pyEq, hab],
    ⟨fun _ => 0, Formula.atom "p", Formula.atom "q", by simp [pyEq], by decide⟩,
    fun h a o => by simp [pyEqObj]⟩

/-- Witness for C10: the conditional conjunct applied at the collision-free
code `encodeChars` and the atom `p` compared with itself. -/
theorem C10_hash_equality_witness :
    pyEq encodeChars (Formula.atom "p") (Formula.atom "p") = true :=
  C10_hash_equality.2.1 encodeChars (Formula.atom "p") (Formula.atom "p") rfl

/-! ## C2 — structural equality of formulas

The canonical textual form does not determine a formula: an atom may be
named so that its rendering embeds the implication separator.  The
development below isolates the class of formulas whose atoms avoid that
(`Formula.plain`), proves that `Formula.name` is injective on it, and uses
an atom named `"x => x"` to refute the claim as stated. -/

/-- A character that creates no textual ambiguity inside an atom name:
not a space and not a parenthesis. -/
def plainChar (c : Char) : Bool :=
  !(c == ' ' || c == '(' || c == ')')

/-- Formulas all of whose atom names are nonempty and made of plain
characters. -/
def Formula.plain : Formula → Bool
  | .atom s => !s.data.isEmpty && s.data.all plainChar
  | .imp l r => Formula.plain l && Formula.plain r

/-- A character that can legitimately follow a complete formula rendering
inside a larger rendering: the separator's space or a closing parenthesis. -/
def terminatorChar (c : Char) : Bool := c == ' ' || c == ')'

/-- Character lists that are empty or begin with a terminator character. -/
def termOK : List Char → Bool
  | [] => true
  | c :: _ => terminatorChar c

theorem termOK_cons (c : Char) (l : List Char) : termOK (c :: l) = terminatorChar c := rfl

theorem plain_not_terminator {c : Char} (hp : plainChar c = true) :
    terminatorChar c = false := by
  simp only [plainChar, Bool.not_eq_eq_eq_not, Bool.not_true, Bool.or_eq_false_iff] at hp
  simp [terminatorChar, beq_eq_false_iff_ne.mp hp.1.1, beq_eq_false_iff_ne.mp hp.2]

/-- The cons-normal form of an implication's canonical name. -/
theorem name_imp_cons (l r : Formula) (s : List Char) :
    (Formula.imp l r).name ++ s =
      '(' :: (l.name ++ (' ' :: '=' :: '>' :: ' ' :: (r.name ++ (')' :: s)))) := by
  show ("(".data ++ l.name ++ " => ".data ++ r.name ++ ")".data) ++ s = _
  have h1 : "(".data = ['('] := rfl
  have h2 : " => ".data = [' ', '=', '>', ' '] := rfl
  have h3 : ")".data = [')'] := rfl
  rw [h1, h2, h3]
  simp [List.append_assoc]

/-- Identifiers made of plain characters are prefix-determined among
terminated continuations. -/
theorem plain_chars_determined {n : List Char} :
    ∀ {m s t : List Char}, n.all plainChar = true → m.all plainChar = true →
      termOK s = true → termOK t = true → n ++ s = m ++ t → n = m ∧ s = t := by
  induction n with
  | nil =>
    intro m s t _ hm hs _ h
    cases m with
    | nil => exact ⟨rfl, h⟩
    | cons d ds =>
      simp only [List.nil_append] at h
      rw [h, List.cons_append] at hs
      have hd : plainChar d = true := by
        simp only [List.all_cons, Bool.and_eq_true] at hm
        exact hm.1
      rw [show termOK (d :: (ds ++ t)) = terminatorChar d from rfl,
        plain_not_terminator hd] at hs
      cases hs
  | cons c cs ih =>
    intro m s t hn hm hs ht h
    cases m with
    | nil =>
      simp only [List.nil_append] at h
      rw [← h, List.cons_append] at ht
      have hc : plainChar c = true := by
        simp only [List.all_cons, Bool.and_eq_true] at hn
        exact hn.1
      rw [show termOK (c :: (cs ++ s)) = terminatorChar c from rfl,
        plain_not_terminator hc] at ht
      cases ht
    | cons d ds =>
      simp only [List.cons_append, List.cons.injEq] at h
      obtain ⟨hcd, htail⟩ := h
      have hn' : cs.all plainChar = true := by
        simp only [List.all_cons, Bool.and_eq_true] at hn
        exact hn.2
      have hm' : ds.all plainChar = true := by
        simp only [List.all_cons, Bool.and_eq_true] at hm
        exact hm.2
      obtain ⟨h1, h2⟩ := ih hn' hm' hs ht htail
      exact ⟨by rw [hcd, h1], h2⟩

/-- Unique readability: among plain formulas, a canonical name followed by a
terminated continuation determines both the formula and the continuation. -/
theorem name_prefix_determined (f : Formula) :
    ∀ (g : Formula) (s t : List Char),
      f.plain = true → g.plain = true → termOK s = true → termOK t = true →
      f.name ++ s = g.name ++ t → f = g ∧ s = t := by
  induction f with
  | atom n =>
    intro g s t hf hg hs ht h
    cases g with
    | atom m =>
      have hf' : n.data.all plainChar = true := by
        simp only [Formula.plain, Bool.and_eq_true] at hf
        exact hf.2
      have hg' : m.data.all plainChar = true := by
        simp only [Formula.plain, Bool.and_eq_true] at hg
        exact hg.2
      obtain ⟨h1, h2⟩ := plain_chars_determined hf' hg' hs ht h
      exact ⟨by rw [show Formula.atom n = Formula.atom ⟨n.data⟩ from rfl, h1], h2⟩
    | imp gl gr =>
      rw [show (Formula.atom n).name = n.data from rfl, name_imp_cons] at h
      cases hd : n.data with
      | nil =>
        simp only [Formula.plain, hd, Bool.and_eq_true] at hf
        cases hf.1
      | cons c cs =>
        rw [hd, List.cons_append] at h
        have hc : plainChar c = true := by
          have := hf
          simp only [Formula.plain, hd, List.all_cons, Bool.and_eq_true] at this
          exact this.2.1
        have : c = '(' := (List.cons.injEq .. ▸ h).1
        rw [this] at hc
        cases hc
  | imp fl fr ihl ihr =>
    intro g s t hf hg hs ht h
    cases g with
    | atom m =>
      rw [name_imp_cons, show (Formula.atom m).name = m.data from rfl] at h
      cases hd : m.data with
      | nil =>
        simp only [Formula.plain, hd, Bool.and_eq_true] at hg
        cases hg.1
      | cons c cs =>
        rw [hd, List.cons_append] at h
        have hc : plainChar c = true := by
          have := hg
          simp only [Formula.plain, hd, List.all_cons, Bool.and_eq_true] at this
          exact this.2.1
        have : '(' = c := (List.cons.injEq .. ▸ h).1
        rw [← this] at hc
        cases hc
    | imp gl gr =>
      rw [name_imp_cons, name_imp_cons] at h
      have htail := (List.cons.injEq .. ▸ h).2
      simp only [Formula.plain, Bool.and_eq_true] at hf hg
      have hterm1 : termOK (' ' :: '=' :: '>' :: ' ' :: (fr.name ++ (')' :: s))) = true := by
        rw [termOK_cons]; decide
      have hterm2 : termOK (' ' :: '=' :: '>' :: ' ' :: (gr.name ++ (')' :: t))) = true := by
        rw [termOK_cons]; decide
      obtain ⟨hfl, htail2⟩ := ihl gl _ _ hf.1 hg.1 hterm1 hterm2 htail
      have htail3 : fr.name ++ (')' :: s) = gr.name ++ (')' :: t) := by
        have := htail2
        simp only [List.cons.injEq, true_and] at this
        exact this
      have hterm3 : termOK (')' :: s) = true := by rw [termOK_cons]; decide
      have hterm4 : termOK (')' :: t) = true := by rw [termOK_cons]; decide
      obtain ⟨hfr, htail4⟩ := ihr gr _ _ hf.2 hg.2 hterm3 hterm4 htail3
      refine ⟨by rw [hfl, hfr], ?_⟩
      simpa using htail4

/-- On plain formulas the canonical textual form is injective. -/
theorem name_inj_on_plain {f g : Formula} (hf : f.plain = true) (hg : g.plain = true)
    (h : f.name = g.name) : f = g :=
  (name_prefix_determined f g [] [] hf hg rfl rfl (by simpa using h)).1

/-- The property C2 asserts of the code's equality for a given string hash
`h`: equality holds iff the canonical textual forms are identical, and
implications built from formulas that compare unequal compare unequal in
either order. -/
def C2Property (h : List Char → Nat) : Prop :=
  (∀ a b : Formula, pyEq h a b = true ↔ a.name = b.name)
  ∧ (∀ a b : Formula, pyEq h a b = false → pyEq h (a.imp b) (b.imp a) = false)

/-- C2 counterexample: with `a` the atom named `"x => x"` and `b` the atom
named `"x"`, the canonical forms of `(a ⇒ b)` and `(b ⇒ a)` are the
identical string `"(x => x => x)"` although the forms of `a` and `b`
differ; consequently no hash function whatsoever — in particular not the
interpreter's — can satisfy the claim: its two halves are contradictory. -/
theorem C2_counterexample :
    ((Formula.atom "x => x").imp (Formula.atom "x")).name =
      ((Formula.atom "x").imp (Formula.atom "x => x")).name
    ∧ (Formula.atom "x => x").name ≠ (Formula.atom "x").name
    ∧ ¬ (∃ h : List Char → Nat, C2Property h) := by
  refine ⟨by decide, by decide, ?_⟩
  rintro ⟨h, h1, h2⟩
  have hne : pyEq h (Formula.atom "x => x") (Formula.atom "x") = false := by
    cases hc : pyEq h (Formula.atom "x => x") (Formula.atom "x")
    · rfl
    · exact absurd ((h1 _ _).mp hc) (by decide)
  have himp := h2 _ _ hne
  have heq : pyEq h ((Formula.atom "x => x").imp (Formula.atom "x"))
      ((Formula.atom "x").imp (Formula.atom "x => x")) = true :=
    (h1 _ _).mpr (by decide)
  rw [himp] at heq
  cases heq

/-- C2 amended: under a collision-free (injective) string hash, and for
formulas whose atom names are nonempty and contain no space or parenthesis
characters (so that renderings are unambiguous), `a == b` holds iff the
canonical textual forms of `a` and `b` are identical, and
`Implication(a,b) != Implication(b,a)` whenever `a != b`. -/
theorem C2_structural_equality (h : List Char → Nat) (hinj : Function.Injective h)
    (a b : Formula) (ha : a.plain = true) (hb : b.plain = true) :
    (pyEq h a b = true ↔ a.name = b.name)
    ∧ (pyEq h a b = false → pyEq h (a.imp b) (b.imp a) = false) := by
  have key : ∀ x y : Formula, pyEq h x y = true ↔ x.name = y.name := by
    intro x y
    constructor
    · intro hxy
      exact hinj (by simpa [pyEq] using hxy)
    · intro hxy
      simp [pyEq, hxy]
  refine ⟨key a b, fun hne => ?_⟩
  have hab : a.name ≠ b.name := by
    intro e
    rw [(key a b).mpr e] at hne
    cases hne
  have hnames : (a.imp b).name ≠ (b.imp a).name := by
    intro e
    have hpab : (a.imp b).plain = true := by simp [Formula.plain, ha, hb]
    have hpba : (b.imp a).plain = true := by simp [Formula.plain, ha, hb]
    have heq := name_inj_on_plain hpab hpba e
    injection heq with e1 e2
    exact hab (by rw [e1])
  cases hpe : pyEq h (a.imp b) (b.imp a)
  · rfl
  · exact absurd ((key _ _).mp hpe) hnames

/-- Witness for C2's amended theorem at the injective code `encodeChars` and
the plain atoms `p` and `q`. -/
theorem C2_structural_equality_witness :
    (pyEq encodeChars (Formula.atom "p") (Formula.atom "q") = true ↔
        (Formula.atom "p").name = (Formula.atom "q").name)
    ∧ (pyEq encodeChars (Formula.atom "p") (Formula.atom "q") = false →
        pyEq encodeChars ((Formula.atom "p").imp (Formula.atom "q"))
          ((Formula.atom "q").imp (Formula.atom "p")) = false) :=
  C2_structural_equality encodeChars encodeChars_injective
    (Formula.atom "p") (Formula.atom "q") (by decide) (by decide)

/-- Witness for C3 at a concrete proof: from premises `[p, (p ⇒ q)]`,
`modus_ponens(p, q)` appends exactly `q`. -/
theorem C3_modus_ponens_sound_witness :
    ({ premises := [Formula.atom "p", (Formula.atom "p").imp (Formula.atom "q")],
       lines := [Formula.atom "p", (Formula.atom "p").imp (Formula.atom "q"), Formula.atom "q"],
       applications := [premiseApp, premiseApp, mpApp 0 1] } : Proof).lines =
      (Proof.init [Formula.atom "p", (Formula.atom "p").imp (Formula.atom "q")]).lines
        ++ [Formula.atom "q"] := by
  have h := (C3_modus_ponens_sound
      (Proof.init [Formula.atom "p", (Formula.atom "p").imp (Formula.atom "q")])
      (Formula.atom "p") (Formula.atom "q")).2 _ (by rfl)
  exact h.2.1

/-! ## C9 — the append-only invariant -/

/-- One proof state extends another: the premises are unchanged, lines and
justifications have only been appended to, and length alignment of the two
sequences is preserved. -/
def Extends (pf pf' : Proof) : Prop :=
  pf'.premises = pf.premises
  ∧ (∃ l, pf'.lines = pf.lines ++ l ∧ pf'.applications.length = pf.applications.length + l.length)
  ∧ (∃ a, pf'.applications = pf.applications ++ a)
  ∧ (pf.lines.length = pf.applications.length →
      pf'.lines.length = pf'.applications.length)

theorem Extends.self (pf : Proof) : Extends pf pf :=
  ⟨rfl, ⟨[], by simp⟩, ⟨[], by simp⟩, fun h => h⟩

theorem Extends.trans {pf₁ pf₂ pf₃ : Proof} (h₁ : Extends pf₁ pf₂) (h₂ : Extends pf₂ pf₃) :
    Extends pf₁ pf₃ := by
  obtain ⟨hp₁, ⟨l₁, hl₁, ha₁⟩, ⟨a₁, haa₁⟩, hlen₁⟩ := h₁
  obtain ⟨hp₂, ⟨l₂, hl₂, ha₂⟩, ⟨a₂, haa₂⟩, hlen₂⟩ := h₂
  refine ⟨by rw [hp₂, hp₁], ⟨l₁ ++ l₂, by rw [hl₂, hl₁, List.append_assoc], ?_⟩,
    ⟨a₁ ++ a₂, by rw [haa₂, haa₁, List.append_assoc]⟩, fun h => hlen₂ (hlen₁ h)⟩
  rw [ha₂, ha₁]
  simp [Nat.add_assoc]

theorem extends_axiom_1 (pf : Proof) (a b : Formula) : Extends pf (pf.axiom_1 a b) :=
  ⟨rfl, ⟨[a.imp (b.imp a)], rfl, by simp [Proof.axiom_1]⟩, ⟨[a1App], rfl⟩,
    fun h => by simp [Proof.axiom_1, h]⟩

theorem extends_axiom_2 (pf : Proof) (a b c : Formula) : Extends pf (pf.axiom_2 a b c) :=
  ⟨rfl, ⟨[(a.imp (b.imp c)).imp ((a.imp b).imp (a.imp c))], rfl, by simp [Proof.axiom_2]⟩,
    ⟨[a2App], rfl⟩, fun h => by simp [Proof.axiom_2, h]⟩

theorem extends_axiom_3 (pf : Proof) (a : Formula) : Extends pf (pf.axiom_3 a) :=
  ⟨rfl, ⟨[(a.neg.neg).imp a], rfl, by simp [Proof.axiom_3]⟩, ⟨[a3App], rfl⟩,
    fun h => by simp [Proof.axiom_3, h]⟩

theorem extends_modus_ponens {pf pf' : Proof} {a b : Formula}
    (h : pf.modus_ponens a b = .ok pf') : Extends pf pf' := by
  by_cases ha : memF pf.lines a = true
  · by_cases hi : memF pf.lines (a.imp b) = true
    · rw [modus_ponens_eq_ok ha hi] at h
      cases Except.ok.inj h
      exact ⟨rfl, ⟨[b], rfl, by simp⟩, ⟨[mpApp (idxF pf.lines a) (idxF pf.lines (a.imp b))], rfl⟩,
        fun hlen => by simp [hlen]⟩
    · rw [modus_ponens_error_of_no_implication ha (Bool.eq_false_iff.mpr hi)] at h
      cases h
  · rw [modus_ponens_error_of_no_antecedent (Bool.eq_false_iff.mpr ha)] at h
    cases h

theorem except_bind_ok {α β : Type} {x : Except PLError α} {f : α → Except PLError β} {b : β}
    (h : (x >>= f) = .ok b) : ∃ a, x = .ok a ∧ f a = .ok b := by
  cases x with
  | error e => exact Except.noConfusion h
  | ok a => exact ⟨a, rfl, h⟩

/-- The direct re-assertion of an axiom line in case 3 of the transformer is
also a one-line append on each sequence. -/
theorem extends_reassert (np : Proof) (line : Formula) (application : List Char) :
    Extends np { np with
                 lines := np.lines ++ [line]
                 applications := np.applications ++ [application] } :=
  ⟨rfl, ⟨[line], rfl, by simp⟩, ⟨[application], rfl⟩, fun h => by simp [h]⟩

/-- Every successful iteration of the transformer's loop only appends. -/
theorem dedStep_extends {proof : Proof} {prem : Formula} {np np' : Proof}
    {la : Formula × List Char} (h : dedStep proof prem np la = .ok np') :
    Extends np np' := by
  unfold dedStep at h
  by_cases h1 : feq la.1 prem = true
  · rw [if_pos h1] at h
    obtain ⟨np₁, hx, h⟩ := except_bind_ok h
    exact ((((extends_axiom_1 np _ _).trans (extends_axiom_2 _ _ _ _)).trans
      (extends_modus_ponens hx)).trans (extends_axiom_1 _ _ _)).trans
      (extends_modus_ponens h)
  · rw [if_neg (by simp [h1])] at h
    by_cases h2 : memF proof.premises la.1 = true
    · rw [if_pos (by simp [h2])] at h
      exact (extends_axiom_1 np _ _).trans (extends_modus_ponens h)
    · rw [if_neg (by simp [h2])] at h
      by_cases h3 : isAxiomApp la.2 = true
      · rw [if_pos (by simp [h3])] at h
        exact ((extends_reassert np _ _).trans (extends_axiom_1 _ _ _)).trans
          (extends_modus_ponens h)
      · rw [if_neg (by simp [h3])] at h
        cases hfp : findPair proof.lines la.1 with
        | none => rw [hfp] at h; cases h
        | some tjtk =>
          rw [hfp] at h
          obtain ⟨tj, tk⟩ := tjtk
          obtain ⟨np₁, hx, h⟩ := except_bind_ok h
          exact ((extends_axiom_2 np _ _ _).trans (extends_modus_ponens hx)).trans
            (extends_modus_ponens h)

/-- C9: every operation — proof construction, the three axiom constructors,
modus ponens, and each loop iteration of the transformer (including the
direct re-assertion of axiom lines in its case 3, covered by `dedStep`) —
keeps the justification sequence aligned index-for-index with the line
sequence (equal lengths, appended in lockstep) and modifies a proof only by
appending: existing lines, justifications and the premise set are never
deleted, reordered or overwritten. -/
theorem C9_append_only_invariant :
    (∀ ps, (Proof.init ps).lines.length = (Proof.init ps).applications.length
        ∧ (Proof.init ps).lines = ps ∧ (Proof.init ps).premises = ps)
    ∧ (∀ pf a b, Extends pf (pf.axiom_1 a b))
    ∧ (∀ pf a b c, Extends pf (pf.axiom_2 a b c))
    ∧ (∀ pf a, Extends pf (pf.axiom_3 a))
    ∧ (∀ pf a b pf', pf.modus_ponens a b = .ok pf' → Extends pf pf')
    ∧ (∀ proof prem np la np', dedStep proof prem np la = .ok np' → Extends np np') :=
  ⟨fun ps => ⟨by simp [Proof.init], rfl, rfl⟩,
    extends_axiom_1, extends_axiom_2, extends_axiom_3,
    fun _ _ _ _ h => extends_modus_ponens h,
    fun _ _ _ _ _ h => dedStep_extends h⟩

/-- Witness for C9: the modus-ponens conjunct applied at a concrete
successful step. -/
theorem C9_append_only_invariant_witness :
    Extends (Proof.init [Formula.atom "p", (Formula.atom "p").imp (Formula.atom "q")])
      { premises := [Formula.atom "p", (Formula.atom "p").imp (Formula.atom "q")]
        lines := [Formula.atom "p", (Formula.atom "p").imp (Formula.atom "q"), Formula.atom "q"]
        applications := [premiseApp, premiseApp, mpApp 0 1] } :=
  C9_append_only_invariant.2.2.2.2.1
    (Proof.init [Formula.atom "p", (Formula.atom "p").imp (Formula.atom "q")])
    (Formula.atom "p") (Formula.atom "q") _ (by rfl)

/-! ## C8 — the transformer does not mutate its input -/

/-- A successful run of the transformer's loop only appends to the proof
under construction. -/
theorem foldlM_dedStep_extends (proof : Proof) (prem : Formula) :
    ∀ (l : List (Formula × List Char)) (np np' : Proof),
      l.foldlM (dedStep proof prem) np = .ok np' → Extends np np' := by
  intro l
  induction l with
  | nil =>
    intro np np' h
    exact Except.ok.inj h ▸ Extends.self np
  | cons la rest ih =>
    intro np np' h
    rw [List.foldlM_cons] at h
    obtain ⟨np₁, h1, h2⟩ := except_bind_ok h
    exact (dedStep_extends h1).trans (ih np₁ np' h2)

/-- The store-threaded loop returns the input-proof component unchanged and
computes the same proof under construction as the plain loop. -/
theorem foldlM_dedStep_st (prem : Formula) (orig : Proof) :
    ∀ (l : List (Formula × List Char)) (np : Proof),
      l.foldlM
          (fun st la => (dedStep st.1 prem st.2 la).map (fun np₂ => (st.1, np₂)))
          (orig, np) =
        (l.foldlM (dedStep orig prem) np).map (fun np₂ => (orig, np₂)) := by
  intro l
  induction l with
  | nil => intro np; rfl
  | cons la rest ih =>
    intro np
    rw [List.foldlM_cons, List.foldlM_cons]
    cases hd : dedStep orig prem np la with
    | error e => rfl
    | ok np₁ => exact ih np₁

/-- C8: `use_deduction_theorem` never mutates its input proof — threading the
input's state through every loop iteration returns it exactly as given, on
success and on failure alike — and the output proof is freshly constructed:
it extends `Proof.init` of the reduced premise list purely by appends. -/
theorem C8_no_input_mutation (pf : Proof) (prem : Formula) :
    use_deduction_theorem_st pf prem =
      (use_deduction_theorem pf prem).map (fun np => (pf, np))
    ∧ (∀ np, use_deduction_theorem pf prem = .ok np →
        Extends (Proof.init (pf.premises.filter (fun x => !feq x prem))) np) := by
  constructor
  · unfold use_deduction_theorem_st use_deduction_theorem
    by_cases h : memF pf.premises prem = false
    · rw [if_pos h, if_pos h]
      rfl
    · rw [if_neg h, if_neg h]
      exact foldlM_dedStep_st prem pf _ _
  · intro np h
    unfold use_deduction_theorem at h
    by_cases hm : memF pf.premises prem = false
    · rw [if_pos hm] at h
      cases h
    · rw [if_neg hm] at h
      exact foldlM_dedStep_extends pf prem _ _ _ h

/-- Witness for C8 at the one-premise proof `{p}` with `p` eliminated: the
store-threaded run returns the input unchanged, and the output (which is the
five-line derivation of `p ⇒ p` over no premises) extends the fresh empty
proof. -/
theorem C8_no_input_mutation_witness :
    use_deduction_theorem_st (Proof.init [Formula.atom "p"]) (Formula.atom "p") =
      (use_deduction_theorem (Proof.init [Formula.atom "p"]) (Formula.atom "p")).map
        (fun np => (Proof.init [Formula.atom "p"], np))
    ∧ Extends
        (Proof.init (((Proof.init [Formula.atom "p"]).premises.filter
          (fun x => !feq x (Formula.atom "p")))))
        { premises := []
          lines := [(Formula.atom "p").imp
                      (((Formula.atom "p").imp (Formula.atom "p")).imp (Formula.atom "p")),
                    ((Formula.atom "p").imp
                      (((Formula.atom "p").imp (Formula.atom "p")).imp (Formula.atom "p"))).imp
                      (((Formula.atom "p").imp ((Formula.atom "p").imp (Formula.atom "p"))).imp
                        ((Formula.atom "p").imp (Formula.atom "p"))),
                    ((Formula.atom "p").imp ((Formula.atom "p").imp (Formula.atom "p"))).imp
                      ((Formula.atom "p").imp (Formula.atom "p")),
                    (Formula.atom "p").imp ((Formula.atom "p").imp (Formula.atom "p")),
                    (Formula.atom "p").imp (Formula.atom "p")]
          applications := [a1App, a2App, mpApp 0 1, a1App, mpApp 3 2] } :=
  ⟨(C8_no_input_mutation (Proof.init [Formula.atom "p"]) (Formula.atom "p")).1,
    (C8_no_input_mutation (Proof.init [Formula.atom "p"]) (Formula.atom "p")).2 _ (by rfl)⟩

/-! ## C7 — the case-4 scan and MalformedInputProof -/

theorem mem_prodList {l₁ l₂ : List Formula} {x : Formula × Formula} :
    x ∈ prodList l₁ l₂ ↔ x.1 ∈ l₁ ∧ x.2 ∈ l₂ := by
  obtain ⟨a, b⟩ := x
  simp [prodList, List.mem_flatMap, Prod.ext_iff, and_assoc]

theorem findPair_isSome_of_exists {lines : List Formula} {t : Formula}
    (h : ∃ tj ∈ lines, ∃ tk ∈ lines, feq tk (tj.imp t) = true) :
    (findPair lines t).isSome = true := by
  obtain ⟨tj, htj, tk, htk, hfeq⟩ := h
  rw [findPair, List.find?_isSome]
  exact ⟨(tj, tk), mem_prodList.mpr ⟨htj, htk⟩, hfeq⟩

/-- Replacing the antecedent of an implication by a formula with the same
canonical name does not change the implication's canonical name. -/
theorem feq_imp_congr_left {x a b y : Formula} (hx : feq x a = true)
    (hy : feq y (a.imp b) = true) : feq y (x.imp b) = true := by
  rw [feq_eq_true_iff] at hx hy ⊢
  rw [hy]
  simp [Formula.name, hx]

theorem mpApp_ne_premiseApp (i j : Nat) : mpApp i j ≠ premiseApp := by
  intro h
  injection h with h1 h2
  injection h2 with h3 h4
  exact absurd h3 (by decide)

theorem isAxiomApp_mpApp (i j : Nat) : isAxiomApp (mpApp i j) = false := rfl

/-- Characterisation of a successful `modus_ponens` call from its result. -/
theorem modus_ponens_ok_inv {pf pf' : Proof} {a b : Formula}
    (h : pf.modus_ponens a b = .ok pf') :
    memF pf.lines a = true ∧ memF pf.lines (a.imp b) = true ∧
    pf' = { pf with
            lines := pf.lines ++ [b]
            applications :=
              pf.applications ++ [mpApp (idxF pf.lines a) (idxF pf.lines (a.imp b))] } := by
  by_cases ha : memF pf.lines a = true
  · by_cases hi : memF pf.lines (a.imp b) = true
    · rw [modus_ponens_eq_ok ha hi] at h
      exact ⟨ha, hi, (Except.ok.inj h).symm⟩
    · rw [modus_ponens_error_of_no_implication ha (Bool.eq_false_iff.mpr hi)] at h
      cases h
  · rw [modus_ponens_error_of_no_antecedent (Bool.eq_false_iff.mpr ha)] at h
    cases h

/-- The well-formedness every API-built proof enjoys: aligned sequences;
premise-justified lines are premises; and any line justified neither as a
premise nor as an axiom has an antecedent/implication pair among the
lines. -/
def ProofInv (pf : Proof) : Prop :=
  pf.lines.length = pf.applications.length
  ∧ ∀ la ∈ pf.lines.zip pf.applications,
      (la.2 = premiseApp → memF pf.premises la.1 = true)
      ∧ (la.2 ≠ premiseApp → isAxiomApp la.2 = false →
          ∃ tj ∈ pf.lines, ∃ tk ∈ pf.lines, feq tk (tj.imp la.1) = true)

/-- Appending one line/application pair preserves the invariant body for the
old pairs. -/
theorem inv_pairs_extend {pf : Proof} {line : Formula} {app : List Char}
    (hlen : pf.lines.length = pf.applications.length)
    (hinv : ∀ la ∈ pf.lines.zip pf.applications,
      (la.2 = premiseApp → memF pf.premises la.1 = true)
      ∧ (la.2 ≠ premiseApp → isAxiomApp la.2 = false →
          ∃ tj ∈ pf.lines, ∃ tk ∈ pf.lines, feq tk (tj.imp la.1) = true))
    (hnew : (app = premiseApp → memF pf.premises line = true)
      ∧ (app ≠ premiseApp → isAxiomApp app = false →
          ∃ tj ∈ pf.lines ++ [line], ∃ tk ∈ pf.lines ++ [line],
            feq tk (tj.imp line) = true)) :
    ∀ la ∈ (pf.lines ++ [line]).zip (pf.applications ++ [app]),
      (la.2 = premiseApp → memF pf.premises la.1 = true)
      ∧ (la.2 ≠ premiseApp → isAxiomApp la.2 = false →
          ∃ tj ∈ pf.lines ++ [line], ∃ tk ∈ pf.lines ++ [line],
            feq tk (tj.imp la.1) = true) := by
  intro la hla
  rw [List.zip_append hlen] at hla
  rcases List.mem_append.mp hla with hold | hnew'
  · obtain ⟨h1, h2⟩ := hinv la hold
    refine ⟨h1, fun hp hax => ?_⟩
    obtain ⟨tj, htj, tk, htk, hfeq⟩ := h2 hp hax
    exact ⟨tj, List.mem_append_left _ htj, tk, List.mem_append_left _ htk, hfeq⟩
  · have : la = (line, app) := by simpa using hnew'
    rw [this]
    exact hnew

/-- Every proof reachable through the public API satisfies the invariant. -/
theorem built_inv {pf : Proof} (h : Built pf) : ProofInv pf := by
  induction h with
  | init ps =>
    refine ⟨by simp [Proof.init], fun la hla => ?_⟩
    obtain ⟨x, y⟩ := la
    have hx : x ∈ ps := (List.of_mem_zip hla).1
    have hy : y = premiseApp := by
      have h2 := (List.of_mem_zip hla).2
      simp [Proof.init] at h2
      exact h2.2
    exact ⟨fun _ => memF_of_mem hx, fun hny _ => absurd hy hny⟩
  | ax1 a b hb ih =>
    obtain ⟨hlen, hinv⟩ := ih
    refine ⟨by simp [Proof.axiom_1, hlen], ?_⟩
    refine inv_pairs_extend hlen hinv ⟨fun hp => absurd hp (by decide), fun _ hax => ?_⟩
    exact absurd hax (by decide)
  | ax2 a b c hb ih =>
    obtain ⟨hlen, hinv⟩ := ih
    refine ⟨by simp [Proof.axiom_2, hlen], ?_⟩
    refine inv_pairs_extend hlen hinv ⟨fun hp => absurd hp (by decide), fun _ hax => ?_⟩
    exact absurd hax (by decide)
  | ax3 a hb ih =>
    obtain ⟨hlen, hinv⟩ := ih
    refine ⟨by simp [Proof.axiom_3, hlen], ?_⟩
    refine inv_pairs_extend hlen hinv ⟨fun hp => absurd hp (by decide), fun _ hax => ?_⟩
    exact absurd hax (by decide)
  | mp a b hb heq ih =>
    obtain ⟨hlen, hinv⟩ := ih
    obtain ⟨ha, hi, hstruct⟩ := modus_ponens_ok_inv heq
    rw [hstruct]
    refine ⟨by simp [hlen], ?_⟩
    refine inv_pairs_extend hlen hinv
      ⟨fun hp => absurd hp (mpApp_ne_premiseApp _ _), fun _ _ => ?_⟩
    obtain ⟨x, hx, hxa⟩ := memF_exists ha
    obtain ⟨y, hy, hyi⟩ := memF_exists hi
    exact ⟨x, List.mem_append_left _ hx, y, List.mem_append_left _ hy,
      feq_imp_congr_left hxa hyi⟩

theorem except_bind_error {α β : Type} {x : Except PLError α} {f : α → Except PLError β}
    {e : PLError} (h : (x >>= f) = .error e) :
    x = .error e ∨ ∃ a, x = .ok a ∧ f a = .error e := by
  cases x with
  | error e1 =>
    have hred : (Except.error e1 : Except PLError α) >>= f =
        (Except.error e1 : Except PLError β) := rfl
    rw [hred] at h
    exact Or.inl (congrArg Except.error (Except.error.inj h))
  | ok a => exact Or.inr ⟨a, rfl, h⟩

theorem mp_error_ne_noAntecedent {pf : Proof} {a b : Formula} {e : PLError}
    (h : pf.modus_ponens a b = .error e) : ∀ f, e ≠ .noAntecedent f := by
  intro f hef
  rcases modus_ponens_error_form h with h' | h' <;> rw [hef] at h' <;>
    exact PLError.noConfusion h'

/-- A loop iteration reports a missing antecedent only from the case-4 scan
itself; whenever the scan is guaranteed to succeed, any error the iteration
raises is a modus-ponens error. -/
theorem dedStep_error_not_noAntecedent {proof : Proof} {prem : Formula} {np : Proof}
    {la : Formula × List Char} {e : PLError}
    (h : dedStep proof prem np la = .error e)
    (hroute : feq la.1 prem = false → memF proof.premises la.1 = false →
      isAxiomApp la.2 = false → (findPair proof.lines la.1).isSome = true) :
    ∀ f, e ≠ .noAntecedent f := by
  unfold dedStep at h
  by_cases h1 : feq la.1 prem = true
  · rw [if_pos h1] at h
    rcases except_bind_error h with h' | ⟨np₁, _, h'⟩
    · exact mp_error_ne_noAntecedent h'
    · exact mp_error_ne_noAntecedent h'
  · rw [if_neg (by simp [h1])] at h
    by_cases h2 : memF proof.premises la.1 = true
    · rw [if_pos (by simp [h2])] at h
      exact mp_error_ne_noAntecedent h
    · rw [if_neg (by simp [h2])] at h
      by_cases h3 : isAxiomApp la.2 = true
      · rw [if_pos (by simp [h3])] at h
        exact mp_error_ne_noAntecedent h
      · rw [if_neg (by simp [h3])] at h
        have hsome := hroute (Bool.eq_false_iff.mpr h1) (Bool.eq_false_iff.mpr h2)
          (Bool.eq_false_iff.mpr h3)
        cases hfp : findPair proof.lines la.1 with
        | none => rw [hfp] at hsome; cases hsome
        | some tjtk =>
          rw [hfp] at h
          obtain ⟨tj, tk⟩ := tjtk
          rcases except_bind_error h with h' | ⟨np₁, _, h'⟩
          · exact mp_error_ne_noAntecedent h'
          · exact mp_error_ne_noAntecedent h'

/-- When every pair of the remaining zip routes safely, the loop never
reports a missing antecedent. -/
theorem foldlM_dedStep_no_noAntecedent (proof : Proof) (prem : Formula) :
    ∀ (l : List (Formula × List Char)),
      (∀ la ∈ l, feq la.1 prem = false → memF proof.premises la.1 = false →
        isAxiomApp la.2 = false → (findPair proof.lines la.1).isSome = true) →
      ∀ (np : Proof) (f : Formula),
        l.foldlM (dedStep proof prem) np ≠ .error (.noAntecedent f) := by
  intro l
  induction l with
  | nil =>
    intro _ np f h
    exact Except.noConfusion h
  | cons la rest ih =>
    intro hall np f
    rw [List.foldlM_cons]
    intro h
    rcases except_bind_error h with h' | ⟨np₁, _, h'⟩
    · exact dedStep_error_not_noAntecedent h'
        (hall la (List.mem_cons_self la rest)) f rfl
    · exact ih (fun la' hla' => hall la' (List.mem_cons_of_mem la hla')) np₁ f h'

/-- C7: a loop iteration whose line compares unequal to the eliminated
premise, is not a member of the premise set, and is not axiom-justified,
fails with the MalformedInputProof error naming the line whenever the case-4
scan of the original proof's lines finds no antecedent/implication pair; and
this error is unreachable for input proofs built only through the `Proof`
API's step constructors — on such proofs the transformer never returns it,
for any premise argument. -/
theorem C7_malformed_input_scan (prem : Formula) :
    (∀ (proof np : Proof) (la : Formula × List Char),
      feq la.1 prem = false → memF proof.premises la.1 = false →
      isAxiomApp la.2 = false → findPair proof.lines la.1 = none →
      dedStep proof prem np la = .error (.noAntecedent la.1))
    ∧ (∀ pf, Built pf → ∀ f,
        use_deduction_theorem pf prem ≠ .error (.noAntecedent f)) := by
  constructor
  · intro proof np la h1 h2 h3 h4
    unfold dedStep
    rw [if_neg (by simp [h1]), if_neg (by simp [h2]), if_neg (by simp [h3]), h4]
  · intro pf hbuilt f
    unfold use_deduction_theorem
    by_cases hm : memF pf.premises prem = false
    · rw [if_pos hm]
      intro h
      exact PLError.noConfusion (Except.error.inj h)
    · rw [if_neg hm]
      obtain ⟨hlen, hinv⟩ := built_inv hbuilt
      refine foldlM_dedStep_no_noAntecedent pf prem _ ?_ _ f
      intro la hla hprem hmem hax
      obtain ⟨hp, hpair⟩ := hinv la hla
      by_cases hpa : la.2 = premiseApp
      · rw [hp hpa] at hmem
        cases hmem
      · exact findPair_isSome_of_exists (hpair hpa hax)

/-- Witness for C7: a hand-assembled proof whose single line `v` carries a
modus-ponens justification although no antecedent pair exists; the iteration
fails with the MalformedInputProof error, naming `v`. -/
theorem C7_malformed_input_scan_witness :
    dedStep { premises := [], lines := [Formula.atom "v"], applications := [mpApp 0 0] }
      (Formula.atom "u") (Proof.init []) (Formula.atom "v", mpApp 0 0) =
      .error (.noAntecedent (Formula.atom "v")) :=
  (C7_malformed_input_scan (Formula.atom "u")).1
    { premises := [], lines := [Formula.atom "v"], applications := [mpApp 0 0] }
    (Proof.init []) (Formula.atom "v", mpApp 0 0)
    (by decide) (by decide) (by decide) (by decide)

/-! ## C1 — Deduction Theorem correctness

The transformer's case-4 scan searches *all* lines of the input proof for an
antecedent/implication pair, not only the lines preceding the one being
processed (and not the pair its recorded justification cites).  The scan can
therefore select a pair whose implication only occurs *after* the
modus-ponens line, in which case the inductive hypothesis
`premise ⇒ implication` is not yet available in the output proof and the
iteration's own modus-ponens call fails.  The proof below exhibits a valid,
API-built input on which this happens. -/

/-- Premise order `u, w, (w ⇒ v)` — one of the iteration orders the Python
premise set can present. -/
def devil0 : Proof :=
  Proof.init [Formula.atom "u", Formula.atom "w",
    (Formula.atom "w").imp (Formula.atom "v")]

/-- After `modus_ponens(w, v)`: line 4 is `v`, justified `"(MP 2, 3)"`. -/
def devil1 : Proof :=
  { devil0 with
    lines := devil0.lines ++ [Formula.atom "v"]
    applications := devil0.applications ++ [mpApp 1 2] }

/-- After `axiom_1(v, u)`: line 5 is `v ⇒ (u ⇒ v)`. -/
def devil2 : Proof := devil1.axiom_1 (Formula.atom "v") (Formula.atom "u")

/-- After `modus_ponens(v, u ⇒ v)`: line 6 is `u ⇒ v`, the conclusion. -/
def devil3 : Proof :=
  { devil2 with
    lines := devil2.lines ++ [(Formula.atom "u").imp (Formula.atom "v")]
    applications := devil2.applications ++ [mpApp 3 4] }

theorem devil1_step : devil0.modus_ponens (Formula.atom "w") (Formula.atom "v") =
    .ok devil1 := rfl

theorem devil3_step :
    devil2.modus_ponens (Formula.atom "v") ((Formula.atom "u").imp (Formula.atom "v")) =
      .ok devil3 := rfl

theorem built_devil3 : Built devil3 :=
  Built.mp _ _ (Built.ax1 _ _ (Built.mp _ _ (Built.init _) devil1_step)) devil3_step

/-- C1 fails on the code: `devil3` is a valid proof built through the `Proof`
API whose premise set contains `(w ⇒ v)`, yet the transformer raises
UnprovenAntecedent on it instead of returning a re-verifiable proof of
`((w ⇒ v) ⇒ (u ⇒ v))` from `{u, w}`: processing the modus-ponens line `v`,
the case-4 scan returns the pair `(u, u ⇒ v)` — `u ⇒ v` occurs only *after*
`v` — so the required line `(w ⇒ v) ⇒ (u ⇒ v)` is not yet in the output. -/
theorem C1_deduction_transformer_bug :
    Built devil3
    ∧ memF devil3.premises ((Formula.atom "w").imp (Formula.atom "v")) = true
    ∧ devil3.conclude = some ((Formula.atom "u").imp (Formula.atom "v"))
    ∧ findPair devil3.lines (Formula.atom "v") =
        some (Formula.atom "u", (Formula.atom "u").imp (Formula.atom "v"))
    ∧ use_deduction_theorem devil3 ((Formula.atom "w").imp (Formula.atom "v")) =
        .error (.unprovenAntecedent
          (((Formula.atom "w").imp (Formula.atom "v")).imp
            ((Formula.atom "u").imp (Formula.atom "v")))) :=
  ⟨built_devil3, by decide, by decide, by decide, by rfl⟩
